import Mathlib

/-!
Verification of the two-agent negotiation driver (`streamLitDemo.py`).

The development shallowly embeds the core logic of the source file:
the stop detector `detect_stop`, the context builders `make_agent_context`
and `build_turn_messages`, the inline negotiation loop under the run
button (embedded as `run_negotiation`), and the JSON transcript export
`export_transcript` together with a parser for the exported format.
The external model transport is modelled as an oracle mapping the turn
index and the message list to either a generated text or a failure.
-/

/-- A role-tagged chat message, mirroring the Python dicts
`\x7b"role": ..., "content": ...\x7d` passed to the model transport. -/
structure Message where
  role : String
  content : String
deriving DecidableEq, Repr

/-- A transcript entry, mirroring the Python dicts
`\x7b"speaker": ..., "who": ..., "text": ...\x7d` appended by the run loop. -/
structure Entry where
  speaker : String
  who : String
  text : String
deriving DecidableEq, Repr

/-- Does the character list `hay` start with the character list `needle`?
Auxiliary for the embedding of Python's `needle in hay` substring test. -/
def strBeginsWith : List Char → List Char → Bool
  | _, [] => true
  | [], _ :: _ => false
  | c :: cs, d :: ds => c == d && strBeginsWith cs ds

/-- Does some suffix of `hay` start with `needle`? -/
def strContainsAux (needle : List Char) : List Char → Bool
  | [] => strBeginsWith [] needle
  | c :: cs => strBeginsWith (c :: cs) needle || strContainsAux needle cs

/-- Embedding of Python's substring test `needle in hay`. -/
def strContains (hay needle : String) : Bool :=
  strContainsAux needle.data hay.data

/-- Embedding of Python's `str.upper()` (character-wise uppercasing, which
agrees with Python on the ASCII sentinels the detector uses). -/
def str_upper (s : String) : String :=
  ⟨s.data.map Char.toUpper⟩

/-- Embedding of `detect_stop` (source lines 74-80): uppercase the text,
return `"agreement"` if it contains `"AGREEMENT REACHED:"`, else
`"no_deal"` if it contains `"NO DEAL:"`, else nothing. -/
def detect_stop (text : String) : Option String :=
  let t := str_upper text
  if strContains t "AGREEMENT REACHED:" then some "agreement"
  else if strContains t "NO DEAL:" then some "no_deal"
  else none

/-- Case-insensitive substring containment, stated as the spec states it:
both the haystack and the needle are uppercased before the substring test.
This is the spec-side notion used to judge `detect_stop`. -/
def ciContains (hay needle : String) : Bool :=
  strContains (str_upper hay) (str_upper needle)

/-- Embedding of `make_agent_context` (source lines 83-86): the fixed
two-message priming context, system instruction then brief. -/
def make_agent_context (sys_prompt brief : String) : List Message :=
  [⟨"system", sys_prompt⟩, ⟨"user", brief⟩]

/-- Embedding of `build_turn_messages` (source lines 89-94): copy the agent
context and, when the partner utterance is truthy (non-`None` and non-empty,
per Python's `if partner_last_utterance:`), append it as a user message. -/
def build_turn_messages (agent_ctx : List Message) (partner_last_utterance : Option String) :
    List Message :=
  match partner_last_utterance with
  | none => agent_ctx
  | some s => if s = "" then agent_ctx else agent_ctx ++ [⟨"user", s⟩]

/-- C5: for every utterance text, `detect_stop` returns `"agreement"` when the
text contains `"AGREEMENT REACHED:"` case-insensitively and not `"NO DEAL:"`,
returns `"no_deal"` when it contains `"NO DEAL:"` and not the agreement
sentinel, and returns `none` when it contains neither; and the lowercase and
uppercase agreement sentinels yield identical results. -/
theorem claim_C5_detect_stop_cases :
    (∀ text : String,
      (ciContains text "AGREEMENT REACHED:" = true ∧ ciContains text "NO DEAL:" = false →
        detect_stop text = some "agreement") ∧
      (ciContains text "NO DEAL:" = true ∧ ciContains text "AGREEMENT REACHED:" = false →
        detect_stop text = some "no_deal") ∧
      (ciContains text "AGREEMENT REACHED:" = false ∧ ciContains text "NO DEAL:" = false →
        detect_stop text = none)) ∧
    detect_stop "agreement reached:" = detect_stop "AGREEMENT REACHED:" := by
  constructor
  · intro text
    have hA : str_upper "AGREEMENT REACHED:" = "AGREEMENT REACHED:" := by decide
    have hN : str_upper "NO DEAL:" = "NO DEAL:" := by decide
    refine ⟨?_, ?_, ?_⟩
    · rintro ⟨h1, -⟩
      unfold ciContains at h1; rw [hA] at h1
      simp [detect_stop, h1]
    · rintro ⟨h1, h2⟩
      unfold ciContains at h1 h2; rw [hN] at h1; rw [hA] at h2
      simp [detect_stop, h1, h2]
    · rintro ⟨h1, h2⟩
      unfold ciContains at h1 h2; rw [hA] at h1; rw [hN] at h2
      simp [detect_stop, h1, h2]
  · decide

/-- Witness for C5: the three detector cases at concrete utterances. -/
theorem claim_C5_witness :
    detect_stop "agreement reached: fifty each" = some "agreement" ∧
    detect_stop "so it is NO DEAL: too costly" = some "no_deal" ∧
    detect_stop "still thinking about terms" = none :=
  ⟨(claim_C5_detect_stop_cases.1 "agreement reached: fifty each").1 ⟨by decide, by decide⟩,
   (claim_C5_detect_stop_cases.1 "so it is NO DEAL: too costly").2.1 ⟨by decide, by decide⟩,
   (claim_C5_detect_stop_cases.1 "still thinking about terms").2.2 ⟨by decide, by decide⟩⟩

/-- C6: when an utterance contains both sentinels (case-insensitively),
`detect_stop` returns `"agreement"` because that check is performed first. -/
theorem claim_C6_agreement_precedence (text : String)
    (h1 : ciContains text "AGREEMENT REACHED:" = true)
    (h2 : ciContains text "NO DEAL:" = true) :
    detect_stop text = some "agreement" := by
  have hA : str_upper "AGREEMENT REACHED:" = "AGREEMENT REACHED:" := by decide
  unfold ciContains at h1; rw [hA] at h1
  simp [detect_stop, h1]

/-- Witness for C6: an utterance holding both sentinels is classified as
agreement. -/
theorem claim_C6_witness :
    ciContains "AGREEMENT REACHED: terms, not NO DEAL: x" "AGREEMENT REACHED:" = true ∧
    ciContains "AGREEMENT REACHED: terms, not NO DEAL: x" "NO DEAL:" = true ∧
    detect_stop "AGREEMENT REACHED: terms, not NO DEAL: x" = some "agreement" :=
  ⟨by decide, by decide,
   claim_C6_agreement_precedence "AGREEMENT REACHED: terms, not NO DEAL: x"
     (by decide) (by decide)⟩

/-- C7 counterexample: the claim "for every non-null counterpart utterance s,
`build_turn_messages` appends one user message with text s" fails at the
empty string, because the source guards the append with Python truthiness:
with the empty utterance nothing is appended. -/
theorem claim_C7_counterexample :
    build_turn_messages ([] : List Message) (some "") ≠ [⟨"user", ""⟩] := by
  decide

/-- C7 as amended: `build_turn_messages` with a null utterance returns the
context unchanged, and with a non-null, non-empty utterance s returns the
context with exactly one user message of text s appended. -/
theorem claim_C7_amended (ctx : List Message) :
    build_turn_messages ctx none = ctx ∧
    ∀ s : String, s ≠ "" → build_turn_messages ctx (some s) = ctx ++ [⟨"user", s⟩] := by
  refine ⟨rfl, fun s hs => ?_⟩
  simp [build_turn_messages, hs]

/-- Witness for amended C7: a concrete context and a concrete non-empty
utterance. -/
theorem claim_C7_witness :
    ("hello" : String) ≠ "" ∧
    build_turn_messages [⟨"system", "sys"⟩] none = [⟨"system", "sys"⟩] ∧
    build_turn_messages [⟨"system", "sys"⟩] (some "hello") =
      [⟨"system", "sys"⟩] ++ [⟨"user", "hello"⟩] :=
  ⟨by decide, (claim_C7_amended [⟨"system", "sys"⟩]).1,
   (claim_C7_amended [⟨"system", "sys"⟩]).2 "hello" (by decide)⟩

/-- C10: an empty-string counterpart utterance is treated exactly like an
absent one: nothing is appended, because the source's append is guarded by
truthiness rather than a null check. -/
theorem claim_C10_empty_utterance (ctx : List Message) :
    build_turn_messages ctx (some "") = ctx ∧
    build_turn_messages ctx (some "") = build_turn_messages ctx none := by
  constructor <;> simp [build_turn_messages]

/-- A store of Python list objects: slot i holds the message list of the
object with reference i. Used to model aliasing and in-place mutation for
the frame claim about `build_turn_messages`. -/
abbrev PyStore : Type := List (List Message)

/-- Embedding of `list(agent_ctx)` in `build_turn_messages`: allocate a fresh
list object holding a copy of the referenced one, returning the new store and
the fresh reference. -/
def py_list_copy (σ : PyStore) (r : Nat) : PyStore × Nat :=
  (List.concat σ (σ.getD r []), σ.length)

/-- Embedding of `msgs.append(...)`: in-place mutation of the referenced
list object. -/
def py_list_append (σ : PyStore) (r : Nat) (m : Message) : PyStore :=
  σ.set r (σ.getD r [] ++ [m])

/-- Reference-level embedding of `build_turn_messages` (source lines 89-94):
copy the context object, then conditionally append to the copy, returning the
updated store and the reference of the fresh turn-message list. -/
def build_turn_messages_impl (σ : PyStore) (ctxRef : Nat)
    (partner_last_utterance : Option String) : PyStore × Nat :=
  let copied := py_list_copy σ ctxRef
  match partner_last_utterance with
  | none => copied
  | some s =>
    if s = "" then copied
    else (py_list_append copied.1 copied.2 ⟨"user", s⟩, copied.2)

/-- Repeated turn-message construction against one context reference,
threading the store through the calls. -/
def iterate_build_calls (σ : PyStore) (ctxRef : Nat) :
    List (Option String) → PyStore
  | [] => σ
  | p :: ps => iterate_build_calls (build_turn_messages_impl σ ctxRef p).1 ctxRef ps

/-- One `build_turn_messages` call leaves every valid store slot unchanged
and grows the store by one object. -/
theorem build_turn_messages_impl_frame (σ : PyStore) (ctxRef r : Nat)
    (p : Option String) (hr : r < σ.length) :
    (build_turn_messages_impl σ ctxRef p).1[r]? = σ[r]? ∧
    (build_turn_messages_impl σ ctxRef p).1.length = σ.length + 1 := by
  have happ : ∀ x : List Message, (σ ++ [x])[r]? = σ[r]? := fun x => by
    rw [List.getElem?_append, if_pos hr]
  cases p with
  | none => simp [build_turn_messages_impl, py_list_copy, happ]
  | some s =>
    by_cases hs : s = "" <;>
      simp [build_turn_messages_impl, py_list_copy, py_list_append, hs, happ]

/-- The pure `build_turn_messages` and the reference-level embedding agree:
the fresh object holds exactly the value the pure function computes from the
referenced context. -/
theorem build_turn_messages_impl_value (σ : PyStore) (ctxRef : Nat)
    (p : Option String) :
    ((build_turn_messages_impl σ ctxRef p).1).getD (build_turn_messages_impl σ ctxRef p).2 [] =
      build_turn_messages (σ.getD ctxRef []) p := by
  have hlen : σ.length < (List.concat σ (σ.getD ctxRef [])).length := by
    simp
  have hfresh : (List.concat σ (σ.getD ctxRef [])).getD σ.length [] = σ.getD ctxRef [] := by
    simp [List.getD, List.concat_eq_append, List.getElem?_concat_length]
  cases p with
  | none => simp [build_turn_messages_impl, py_list_copy, build_turn_messages, hfresh]
  | some s =>
    by_cases hs : s = ""
    · simp [build_turn_messages_impl, py_list_copy, build_turn_messages, hs, hfresh]
    · simp [build_turn_messages_impl, py_list_copy, py_list_append, build_turn_messages, hs,
        List.getD, List.getElem?_set_self' , hfresh]

/-- C8: `build_turn_messages` never mutates the agent context it is given:
any number of turn-message constructions against the same context reference
leaves the referenced context object unchanged in the store, because each
call operates on a defensive copy. -/
theorem claim_C8_context_never_mutated (ps : List (Option String)) (σ : PyStore)
    (ctxRef : Nat) (hr : ctxRef < σ.length) :
    (iterate_build_calls σ ctxRef ps)[ctxRef]? = σ[ctxRef]? := by
  induction ps generalizing σ with
  | nil => rfl
  | cons p ps ih =>
    have hframe := build_turn_messages_impl_frame σ ctxRef ctxRef p hr
    calc (iterate_build_calls (build_turn_messages_impl σ ctxRef p).1 ctxRef ps)[ctxRef]?
        = (build_turn_messages_impl σ ctxRef p).1[ctxRef]? :=
          ih _ (by omega)
      _ = σ[ctxRef]? := hframe.1

/-- Witness for C8: three construction calls (a message, a null utterance,
an empty utterance) leave a concrete one-slot store's context unchanged. -/
theorem claim_C8_witness :
    (0 : Nat) < ([[⟨"system", "sys"⟩]] : PyStore).length ∧
    (iterate_build_calls [[⟨"system", "sys"⟩]] 0 [some "offer", none, some ""])[0]? =
      ([[⟨"system", "sys"⟩]] : PyStore)[0]? :=
  ⟨by decide,
   claim_C8_context_never_mutated [some "offer", none, some ""] [[⟨"system", "sys"⟩]] 0
     (by decide)⟩

/-- The mutable state of the run-button loop (source lines 181-192):
the transcript so far, the last utterance of each agent (null before that
agent has spoken), and whose turn is next. -/
structure SchedState where
  transcript : List Entry
  last_a : Option String
  last_b : Option String
  next_speaker : String
deriving DecidableEq, Repr

/-- Embedding of the negotiation loop body (source lines 192-232), recursing
on the number of remaining loop iterations. `t` is the current value of the
loop index, used to address the transport oracle; the oracle maps the turn
index and the built message list to the generated text or a transport
failure. Exiting the loop with iterations left corresponds to a `break`:
on a transport failure the cause is `"transport-error"`; on a detected stop
it is the detected cause; running out of iterations without a `break` gives
`"turn-limit-exhausted"`. -/
def runFrom (a_name b_name : String) (a_ctx b_ctx : List Message)
    (oracle : Nat → List Message → Except Unit String) :
    Nat → Nat → SchedState → List Entry × String
  | _, 0, st => (st.transcript, "turn-limit-exhausted")
  | t, r + 1, st =>
    if st.next_speaker = a_name then
      match oracle t (build_turn_messages a_ctx st.last_b) with
      | Except.error _ => (st.transcript, "transport-error")
      | Except.ok a_out =>
        let tr := st.transcript ++ [⟨"assistant", a_name, a_out⟩]
        match detect_stop a_out with
        | some stop => (tr, stop)
        | none =>
          runFrom a_name b_name a_ctx b_ctx oracle (t + 1) r
            ⟨tr, some a_out, st.last_b, b_name⟩
    else
      match oracle t (build_turn_messages b_ctx st.last_a) with
      | Except.error _ => (st.transcript, "transport-error")
      | Except.ok b_out =>
        let tr := st.transcript ++ [⟨"assistant", b_name, b_out⟩]
        match detect_stop b_out with
        | some stop => (tr, stop)
        | none =>
          runFrom a_name b_name a_ctx b_ctx oracle (t + 1) r
            ⟨tr, st.last_a, some b_out, a_name⟩

/-- Embedding of a whole run (source lines 181-237): empty transcript, no
last utterances, the configured first speaker next, and `max_turns` loop
iterations. Returns the final transcript and the termination cause. -/
def run_negotiation (a_name b_name : String) (a_ctx b_ctx : List Message)
    (first_speaker : String) (max_turns : Nat)
    (oracle : Nat → List Message → Except Unit String) : List Entry × String :=
  runFrom a_name b_name a_ctx b_ctx oracle 0 max_turns ⟨[], none, none, first_speaker⟩

/-- The other agent's name: `flipName a b x` is `b` when `x` is `a`, else
`a`. -/
def flipName (a b x : String) : String :=
  if x = a then b else a

/-- Strict alternation of the `who` field: the first entry is spoken by `x`,
the second by `y`, and so on. -/
def altFrom (x y : String) : List Entry → Bool
  | [] => true
  | e :: rest => if e.who = x then altFrom y x rest else false

/-- The speaker the loop schedules for turn index `i` when `x` speaks
first. -/
def speaker_at (a b x : String) (i : Nat) : String :=
  if i % 2 = 0 then x else flipName a b x

/-- With an oracle that always succeeds and never produces a sentinel, every
loop iteration appends exactly one entry and the loop runs to its iteration
bound with cause turn-limit-exhausted. -/
theorem runFrom_no_stop (a b : String) (actx bctx : List Message)
    (oracle : Nat → List Message → Except Unit String)
    (hok : ∀ t m, ∃ s, oracle t m = Except.ok s ∧ detect_stop s = none) :
    ∀ r t st, (runFrom a b actx bctx oracle t r st).2 = "turn-limit-exhausted" ∧
      (runFrom a b actx bctx oracle t r st).1.length = st.transcript.length + r := by
  intro r
  induction r with
  | zero => intro t st; simp [runFrom]
  | succ r ih =>
    intro t st
    by_cases h : st.next_speaker = a
    · obtain ⟨s, hs, hstop⟩ := hok t (build_turn_messages actx st.last_b)
      have hrec := ih (t + 1) ⟨st.transcript ++ [⟨"assistant", a, s⟩], some s, st.last_b, b⟩
      simp only [runFrom, if_pos h, hs, hstop]
      refine ⟨hrec.1, ?_⟩
      rw [hrec.2]; simp; omega
    · obtain ⟨s, hs, hstop⟩ := hok t (build_turn_messages bctx st.last_a)
      have hrec := ih (t + 1) ⟨st.transcript ++ [⟨"assistant", b, s⟩], st.last_a, some s, a⟩
      simp only [runFrom, if_neg h, hs, hstop]
      refine ⟨hrec.1, ?_⟩
      rw [hrec.2]; simp; omega

/-- C2: with a transport that never fails and never produces a sentinel,
a run with `max_turns = N` yields a transcript of exactly N entries (one per
individual agent message) and terminates with cause turn-limit-exhausted. -/
theorem claim_C2_turn_limit (a b first : String) (actx bctx : List Message) (mt : Nat)
    (oracle : Nat → List Message → Except Unit String)
    (hok : ∀ t m, ∃ s, oracle t m = Except.ok s ∧ detect_stop s = none) :
    (run_negotiation a b actx bctx first mt oracle).1.length = mt ∧
    (run_negotiation a b actx bctx first mt oracle).2 = "turn-limit-exhausted" := by
  have h := runFrom_no_stop a b actx bctx oracle hok mt 0 ⟨[], none, none, first⟩
  exact ⟨by simpa [run_negotiation] using h.2, by simpa [run_negotiation] using h.1⟩

/-- Witness for C2: four turns with a sentinel-free transport give four
entries and turn-limit exhaustion. -/
theorem claim_C2_witness :
    (run_negotiation "Aiko" "Blake" [] [] "Aiko" 4 (fun _ _ => Except.ok "counter")).1.length = 4 ∧
    (run_negotiation "Aiko" "Blake" [] [] "Aiko" 4 (fun _ _ => Except.ok "counter")).2 =
      "turn-limit-exhausted" :=
  claim_C2_turn_limit "Aiko" "Blake" "Aiko" [] [] 4 (fun _ _ => Except.ok "counter")
    (fun _ _ => ⟨"counter", rfl, by decide⟩)

/-- With a never-failing oracle, the run transcript extends the starting
transcript by a block that strictly alternates speakers starting from the
current next speaker. -/
theorem runFrom_alternates (a b : String) (actx bctx : List Message)
    (oracle : Nat → List Message → Except Unit String) (ha : a ≠ b)
    (hok : ∀ t m, ∃ s, oracle t m = Except.ok s) :
    ∀ r t st x y, (x = a ∧ y = b) ∨ (x = b ∧ y = a) → st.next_speaker = x →
      ∃ ext c, runFrom a b actx bctx oracle t r st = (st.transcript ++ ext, c) ∧
        altFrom x y ext = true := by
  intro r
  induction r with
  | zero =>
    intro t st x y hxy hx
    exact ⟨[], "turn-limit-exhausted", by simp [runFrom], rfl⟩
  | succ r ih =>
    intro t st x y hxy hx
    rcases hxy with ⟨rfl, rfl⟩ | ⟨rfl, rfl⟩
    · obtain ⟨s, hs⟩ := hok t (build_turn_messages actx st.last_b)
      cases hstop : detect_stop s with
      | some stop =>
        refine ⟨[⟨"assistant", x, s⟩], stop, ?_, ?_⟩
        · simp [runFrom, hx, hs, hstop]
        · simp [altFrom]
      | none =>
        obtain ⟨ext, c, heq, halt⟩ :=
          ih (t + 1) ⟨st.transcript ++ [⟨"assistant", x, s⟩], some s, st.last_b, y⟩ y x
            (Or.inr ⟨rfl, rfl⟩) rfl
        refine ⟨⟨"assistant", x, s⟩ :: ext, c, ?_, ?_⟩
        · simp only [runFrom, if_pos hx, hs, hstop]
          rw [heq]; simp
        · simp [altFrom, halt]
    · have hcond : ¬ st.next_speaker = y := by rw [hx]; exact Ne.symm ha
      obtain ⟨s, hs⟩ := hok t (build_turn_messages bctx st.last_a)
      cases hstop : detect_stop s with
      | some stop =>
        refine ⟨[⟨"assistant", x, s⟩], stop, ?_, ?_⟩
        · simp [runFrom, hcond, hs, hstop]
        · simp [altFrom]
      | none =>
        obtain ⟨ext, c, heq, halt⟩ :=
          ih (t + 1) ⟨st.transcript ++ [⟨"assistant", x, s⟩], st.last_a, some s, y⟩ y x
            (Or.inl ⟨rfl, rfl⟩) rfl
        refine ⟨⟨"assistant", x, s⟩ :: ext, c, ?_, ?_⟩
        · simp only [runFrom, if_neg hcond, hs, hstop]
          rw [heq]; simp
        · simp [altFrom, halt]

/-- C1: in a run whose transport never fails, with distinct agent names and
a configured first speaker, the transcript strictly alternates the `who`
field between the two names and its first entry is spoken by the configured
first speaker. -/
theorem claim_C1_alternation (a b first : String) (actx bctx : List Message) (mt : Nat)
    (oracle : Nat → List Message → Except Unit String) (ha : a ≠ b)
    (hfirst : first = a ∨ first = b)
    (hok : ∀ t m, ∃ s, oracle t m = Except.ok s) :
    altFrom first (flipName a b first) (run_negotiation a b actx bctx first mt oracle).1 = true ∧
    ∀ e, (run_negotiation a b actx bctx first mt oracle).1.head? = some e → e.who = first := by
  have hxy : (first = a ∧ flipName a b first = b) ∨ (first = b ∧ flipName a b first = a) := by
    rcases hfirst with h | h
    · exact Or.inl ⟨h, by simp [flipName, h]⟩
    · refine Or.inr ⟨h, ?_⟩
      rw [h, flipName, if_neg (Ne.symm ha)]
  obtain ⟨ext, c, heq, halt⟩ :=
    runFrom_alternates a b actx bctx oracle ha hok mt 0 ⟨[], none, none, first⟩ first
      (flipName a b first) hxy rfl
  have h1 : (run_negotiation a b actx bctx first mt oracle).1 = ext := by
    simp [run_negotiation, heq]
  rw [h1]
  refine ⟨halt, ?_⟩
  intro e he
  cases ext with
  | nil => simp at he
  | cons e0 rest =>
    have hwho : e0.who = first := by
      by_contra hne
      simp [altFrom, hne] at halt
    simp only [List.head?_cons, Option.some.injEq] at he
    rw [← he]; exact hwho

/-- Witness for C1: a five-turn run with distinct names alternates speakers
starting from the configured first speaker. -/
theorem claim_C1_witness :
    ("Aiko" : String) ≠ "Blake" ∧
    altFrom "Aiko" (flipName "Aiko" "Blake" "Aiko")
      (run_negotiation "Aiko" "Blake" [] [] "Aiko" 5 (fun _ _ => Except.ok "offer")).1 = true :=
  ⟨by decide,
   (claim_C1_alternation "Aiko" "Blake" "Aiko" [] [] 5 (fun _ _ => Except.ok "offer")
      (by decide) (Or.inl rfl) (fun _ _ => ⟨"offer", rfl⟩)).1⟩

/-- One clean loop iteration: the transport succeeded with text `out` and no
sentinel fired, so the entry is appended, the speaker's last utterance is
updated, and the turn passes to the other agent. -/
def cleanStep (a b : String) (out : String) (st : SchedState) : SchedState :=
  if st.next_speaker = a then
    ⟨st.transcript ++ [⟨"assistant", a, out⟩], some out, st.last_b, b⟩
  else
    ⟨st.transcript ++ [⟨"assistant", b, out⟩], st.last_a, some out, a⟩

/-- The run state after `n` clean iterations starting at loop index `t`,
when the generated texts are given by `f`. -/
def cleanRun (a b : String) (f : Nat → String) : Nat → Nat → SchedState → SchedState
  | _, 0, st => st
  | t, n + 1, st => cleanRun a b f (t + 1) n (cleanStep a b (f t) st)

/-- The transcript entries appended by `n` clean iterations starting at loop
index `t` with `x` to speak next. -/
def cleanEntries (a b : String) (f : Nat → String) : Nat → Nat → String → List Entry
  | _, 0, _ => []
  | t, n + 1, x =>
    if x = a then ⟨"assistant", a, f t⟩ :: cleanEntries a b f (t + 1) n b
    else ⟨"assistant", b, f t⟩ :: cleanEntries a b f (t + 1) n a

/-- Scheduled speakers shift by one when the first speaker flips. -/
theorem speaker_at_flip (a b : String) (ha : a ≠ b) (x : String)
    (hmem : x = a ∨ x = b) (i : Nat) :
    speaker_at a b (flipName a b x) i = speaker_at a b x (i + 1) := by
  have hfa : flipName a b a = b := by simp [flipName]
  have hfb : flipName a b b = a := by rw [flipName, if_neg (Ne.symm ha)]
  rcases hmem with rfl | rfl
  · rw [hfa, speaker_at, speaker_at, hfb, hfa]
    by_cases hi : i % 2 = 0
    · rw [if_pos hi, if_neg (by omega)]
    · rw [if_neg hi, if_pos (by omega)]
  · rw [hfb, speaker_at, speaker_at, hfa, hfb]
    by_cases hi : i % 2 = 0
    · rw [if_pos hi, if_neg (by omega)]
    · rw [if_neg hi, if_pos (by omega)]

/-- The scheduled speaker is always one of the two agents. -/
theorem speaker_at_mem (a b x : String) (hmem : x = a ∨ x = b) (i : Nat) :
    speaker_at a b x i = a ∨ speaker_at a b x i = b := by
  rw [speaker_at]
  by_cases hi : i % 2 = 0
  · rw [if_pos hi]; exact hmem
  · rw [if_neg hi, flipName]
    by_cases hx : x = a
    · rw [if_pos hx]; right; rfl
    · rw [if_neg hx]; left; rfl

/-- The clean-run transcript is the starting transcript extended by the
clean entries of the block. -/
theorem cleanRun_transcript (a b : String) (f : Nat → String) :
    ∀ n t st, (cleanRun a b f t n st).transcript =
      st.transcript ++ cleanEntries a b f t n st.next_speaker := by
  intro n
  induction n with
  | zero => intro t st; simp [cleanRun, cleanEntries]
  | succ n ih =>
    intro t st
    by_cases h : st.next_speaker = a
    · simp only [cleanRun]
      rw [ih]
      simp [cleanStep, cleanEntries, h]
    · simp only [cleanRun]
      rw [ih]
      simp [cleanStep, cleanEntries, h]

/-- A block of `n` clean iterations appends exactly `n` entries. -/
theorem cleanEntries_length (a b : String) (f : Nat → String) :
    ∀ n t x, (cleanEntries a b f t n x).length = n := by
  intro n
  induction n with
  | zero => intro t x; rfl
  | succ n ih => intro t x; by_cases h : x = a <;> simp [cleanEntries, h, ih]

/-- After `n` clean iterations the next speaker is the one scheduled for
turn index `n`. -/
theorem cleanRun_next (a b : String) (f : Nat → String) (ha : a ≠ b) :
    ∀ n t st, (st.next_speaker = a ∨ st.next_speaker = b) →
      (cleanRun a b f t n st).next_speaker = speaker_at a b st.next_speaker n := by
  intro n
  induction n with
  | zero => intro t st _; simp [cleanRun, speaker_at]
  | succ n ih =>
    intro t st hmem
    have hstep : (cleanStep a b (f t) st).next_speaker = flipName a b st.next_speaker := by
      rcases hmem with h | h
      · rw [cleanStep, if_pos h, flipName, if_pos h]
      · by_cases h' : st.next_speaker = a
        · rw [cleanStep, if_pos h', flipName, if_pos h']
        · rw [cleanStep, if_neg h', flipName, if_neg h']
    have hmem' : (cleanStep a b (f t) st).next_speaker = a ∨
        (cleanStep a b (f t) st).next_speaker = b := by
      rw [hstep]
      rcases hmem with h | h
      · rw [h]; right; simp [flipName]
      · rw [h, flipName, if_neg (Ne.symm ha)]; left; rfl
    simp only [cleanRun]
    rw [ih (t + 1) _ hmem', hstep, speaker_at_flip a b ha _ hmem]

/-- Entry `i` of a clean block starting with speaker `x` is spoken by the
speaker scheduled for index `i` and holds the text generated at index
`t + i`. -/
theorem cleanEntries_getElem (a b : String) (f : Nat → String) (ha : a ≠ b) :
    ∀ n t x i, (x = a ∨ x = b) → i < n →
      (cleanEntries a b f t n x)[i]? =
        some ⟨"assistant", speaker_at a b x i, f (t + i)⟩ := by
  intro n
  induction n with
  | zero => intro t x i _ hi; omega
  | succ n ih =>
    intro t x i hmem hi
    have hfa : flipName a b a = b := by simp [flipName]
    have hfb : flipName a b b = a := by rw [flipName, if_neg (Ne.symm ha)]
    rcases hmem with rfl | rfl
    · cases i with
      | zero => simp [cleanEntries, speaker_at]
      | succ i =>
        rw [cleanEntries, if_pos rfl]
        rw [List.getElem?_cons_succ]
        rw [ih (t + 1) b i (Or.inr rfl) (by omega)]
        have hflip := speaker_at_flip x b ha x (Or.inl rfl) i
        rw [hfa] at hflip
        rw [hflip, show t + 1 + i = t + (i + 1) by omega]
    · cases i with
      | zero =>
        rw [cleanEntries, if_neg (Ne.symm ha)]
        simp [speaker_at]
      | succ i =>
        rw [cleanEntries, if_neg (Ne.symm ha)]
        rw [List.getElem?_cons_succ]
        rw [ih (t + 1) a i (Or.inl rfl) (by omega)]
        have hflip := speaker_at_flip a x ha x (Or.inr rfl) i
        rw [hfb] at hflip
        rw [hflip, show t + 1 + i = t + (i + 1) by omega]

/-- Advancing the loop over a clean block: when the oracle succeeds with the
texts given by `f` on the next `n` turn indices and no sentinel fires there,
running `n + r` iterations equals running `r` iterations from the clean
state. -/
theorem runFrom_advance (a b : String) (actx bctx : List Message)
    (oracle : Nat → List Message → Except Unit String) (f : Nat → String) :
    ∀ n t r st,
      (∀ i, i < n → (∀ m, oracle (t + i) m = Except.ok (f (t + i))) ∧
        detect_stop (f (t + i)) = none) →
      runFrom a b actx bctx oracle t (n + r) st =
        runFrom a b actx bctx oracle (t + n) r (cleanRun a b f t n st) := by
  intro n
  induction n with
  | zero => intro t r st _; simp [cleanRun]
  | succ n ih =>
    intro t r st h
    have h0 := h 0 (by omega)
    rw [show t + 0 = t by omega] at h0
    have hstep : runFrom a b actx bctx oracle t (n + 1 + r) st =
        runFrom a b actx bctx oracle (t + 1) (n + r) (cleanStep a b (f t) st) := by
      rw [show n + 1 + r = (n + r) + 1 by omega]
      by_cases hx : st.next_speaker = a
      · simp only [runFrom, if_pos hx, h0.1, h0.2, cleanStep, if_pos hx]
      · simp only [runFrom, if_neg hx, h0.1, h0.2, cleanStep, if_neg hx]
    rw [hstep, ih (t + 1) r (cleanStep a b (f t) st) (fun i hi => by
      have hh := h (i + 1) (by omega)
      rwa [show t + (i + 1) = t + 1 + i by omega] at hh)]
    rw [show t + 1 + n = t + (n + 1) by omega]
    rfl

/-- C3: when the k-th generated utterance is the first to contain a stop
sentinel (k within the turn budget, transport succeeding on the first k
turns), the run halts immediately after that turn: the transcript has
exactly k entries, the cause is the detected one, and the last entry holds
that utterance and its scheduled speaker. -/
theorem claim_C3_stop_halts (a b first : String) (actx bctx : List Message) (mt k : Nat)
    (oracle : Nat → List Message → Except Unit String) (f : Nat → String) (c : String)
    (ha : a ≠ b) (hfirst : first = a ∨ first = b)
    (hk1 : 1 ≤ k) (hkmt : k ≤ mt)
    (hok : ∀ i, i < k → ∀ m, oracle i m = Except.ok (f i))
    (hpre : ∀ i, i + 1 < k → detect_stop (f i) = none)
    (hstop : detect_stop (f (k - 1)) = some c) :
    (run_negotiation a b actx bctx first mt oracle).1.length = k ∧
    (run_negotiation a b actx bctx first mt oracle).2 = c ∧
    (run_negotiation a b actx bctx first mt oracle).1.getLast? =
      some ⟨"assistant", speaker_at a b first (k - 1), f (k - 1)⟩ := by
  obtain ⟨n, rfl⟩ : ∃ n, k = n + 1 := ⟨k - 1, by omega⟩
  obtain ⟨r, rfl⟩ : ∃ r, mt = n + (r + 1) := ⟨mt - n - 1, by omega⟩
  simp only [Nat.add_sub_cancel] at hstop ⊢
  have hadv := runFrom_advance a b actx bctx oracle f n 0 (r + 1) ⟨[], none, none, first⟩
    (fun i hi => ⟨fun m => by simpa using hok i (by omega) m,
      by simpa using hpre i (by omega)⟩)
  have hnext : (cleanRun a b f 0 n ⟨[], none, none, first⟩).next_speaker
      = speaker_at a b first n :=
    cleanRun_next a b f ha n 0 ⟨[], none, none, first⟩ hfirst
  have htr : (cleanRun a b f 0 n ⟨[], none, none, first⟩).transcript
      = cleanEntries a b f 0 n first := by
    rw [cleanRun_transcript]; simp
  have hone : runFrom a b actx bctx oracle (0 + n) (r + 1)
        (cleanRun a b f 0 n ⟨[], none, none, first⟩) =
      ((cleanRun a b f 0 n ⟨[], none, none, first⟩).transcript ++
        [⟨"assistant", speaker_at a b first n, f n⟩], c) := by
    rcases speaker_at_mem a b first hfirst n with hw | hw
    · have hcond : (cleanRun a b f 0 n ⟨[], none, none, first⟩).next_speaker = a := by
        rw [hnext, hw]
      simp only [runFrom, if_pos hcond, Nat.zero_add, hok n (by omega), hstop]
      rw [hw]
    · have hcond : ¬ (cleanRun a b f 0 n ⟨[], none, none, first⟩).next_speaker = a := by
        rw [hnext, hw]; exact Ne.symm ha
      simp only [runFrom, if_neg hcond, Nat.zero_add, hok n (by omega), hstop]
      rw [hw]
  have hfull : run_negotiation a b actx bctx first (n + (r + 1)) oracle =
      (cleanEntries a b f 0 n first ++ [⟨"assistant", speaker_at a b first n, f n⟩], c) := by
    simp only [run_negotiation]
    rw [hadv, hone, htr]
  refine ⟨?_, by rw [hfull], by rw [hfull]; exact List.getLast?_concat _⟩
  rw [hfull]
  simp [cleanEntries_length a b f n 0 first]

/-- Witness for C3: the spec scenario — twelve-turn budget, Aiko first, the
fifth overall message contains the agreement sentinel, so the run stops at
five entries with cause agreement and Aiko speaking last. -/
theorem claim_C3_witness :
    (run_negotiation "Aiko" "Blake" [] [] "Aiko" 12
      (fun t _ => Except.ok
        (if t = 4 then "AGREEMENT REACHED: $45/unit" else "offer"))).1.length = 5 ∧
    (run_negotiation "Aiko" "Blake" [] [] "Aiko" 12
      (fun t _ => Except.ok
        (if t = 4 then "AGREEMENT REACHED: $45/unit" else "offer"))).2 = "agreement" ∧
    (run_negotiation "Aiko" "Blake" [] [] "Aiko" 12
      (fun t _ => Except.ok
        (if t = 4 then "AGREEMENT REACHED: $45/unit" else "offer"))).1.getLast? =
      some ⟨"assistant", "Aiko", "AGREEMENT REACHED: $45/unit"⟩ :=
  claim_C3_stop_halts "Aiko" "Blake" "Aiko" [] [] 12 5
    (fun t _ => Except.ok (if t = 4 then "AGREEMENT REACHED: $45/unit" else "offer"))
    (fun t => if t = 4 then "AGREEMENT REACHED: $45/unit" else "offer") "agreement"
    (by decide) (Or.inl rfl) (by omega) (by omega)
    (fun _ _ _ => rfl)
    (fun i hi => by
      have hi4 : i < 4 := by omega
      interval_cases i <;> decide)
    (by decide)

/-- C4: when the transport fails at some turn after a clean prefix, the run
halts immediately with cause transport-error, the failed turn contributes no
entry, and the entries of the earlier turns are preserved unchanged. -/
theorem claim_C4_transport_error (a b first : String) (actx bctx : List Message) (mt j : Nat)
    (oracle : Nat → List Message → Except Unit String) (f : Nat → String)
    (ha : a ≠ b) (hfirst : first = a ∨ first = b) (hj : j < mt)
    (hok : ∀ i, i < j → (∀ m, oracle i m = Except.ok (f i)) ∧ detect_stop (f i) = none)
    (hfail : ∀ m, oracle j m = Except.error ()) :
    (run_negotiation a b actx bctx first mt oracle).2 = "transport-error" ∧
    (run_negotiation a b actx bctx first mt oracle).1.length = j ∧
    ∀ i, i < j → (run_negotiation a b actx bctx first mt oracle).1[i]? =
      some ⟨"assistant", speaker_at a b first i, f i⟩ := by
  obtain ⟨r, rfl⟩ : ∃ r, mt = j + (r + 1) := ⟨mt - j - 1, by omega⟩
  have hadv := runFrom_advance a b actx bctx oracle f j 0 (r + 1) ⟨[], none, none, first⟩
    (fun i hi => ⟨fun m => by simpa using (hok i hi).1 m, by simpa using (hok i hi).2⟩)
  have htr : (cleanRun a b f 0 j ⟨[], none, none, first⟩).transcript
      = cleanEntries a b f 0 j first := by
    rw [cleanRun_transcript]; simp
  have hone : runFrom a b actx bctx oracle (0 + j) (r + 1)
        (cleanRun a b f 0 j ⟨[], none, none, first⟩) =
      ((cleanRun a b f 0 j ⟨[], none, none, first⟩).transcript, "transport-error") := by
    by_cases hcond : (cleanRun a b f 0 j ⟨[], none, none, first⟩).next_speaker = a
    · simp only [runFrom, if_pos hcond, Nat.zero_add, hfail]
    · simp only [runFrom, if_neg hcond, Nat.zero_add, hfail]
  have hfull : run_negotiation a b actx bctx first (j + (r + 1)) oracle =
      (cleanEntries a b f 0 j first, "transport-error") := by
    simp only [run_negotiation]
    rw [hadv, hone, htr]
  refine ⟨by rw [hfull], by rw [hfull]; exact cleanEntries_length a b f j 0 first, ?_⟩
  intro i hi
  rw [hfull]
  simpa using cleanEntries_getElem a b f ha j 0 first i hfirst hi

/-- Witness for C4: the spec scenario — the transport fails on Blake's very
first turn after Aiko's opening succeeded, leaving exactly one entry (Aiko's
opening) and cause transport-error. -/
theorem claim_C4_witness :
    (run_negotiation "Aiko" "Blake" [] [] "Aiko" 12
      (fun t _ => if t = 0 then Except.ok "opening offer" else Except.error ())).2 =
        "transport-error" ∧
    (run_negotiation "Aiko" "Blake" [] [] "Aiko" 12
      (fun t _ => if t = 0 then Except.ok "opening offer" else Except.error ())).1.length = 1 ∧
    (run_negotiation "Aiko" "Blake" [] [] "Aiko" 12
      (fun t _ => if t = 0 then Except.ok "opening offer" else Except.error ())).1[0]? =
      some ⟨"assistant", "Aiko", "opening offer"⟩ := by
  have h := claim_C4_transport_error "Aiko" "Blake" "Aiko" [] [] 12 1
    (fun t _ => if t = 0 then Except.ok "opening offer" else Except.error ())
    (fun _ => "opening offer") (by decide) (Or.inl rfl) (by omega)
    (fun i hi => by interval_cases i; exact ⟨fun _ => rfl, by decide⟩)
    (fun _ => rfl)
  exact ⟨h.1, h.2.1, h.2.2 0 (by omega)⟩

/-- Hexadecimal digit characters as the JSON escaper emits them (lowercase,
as Python's json module writes `\u00xx`). -/
def hexDigit (n : Nat) : Char :=
  if n < 10 then Char.ofNat (48 + n) else Char.ofNat (87 + n)

/-- Numeric value of a hexadecimal digit character (both cases accepted). -/
def hexVal (c : Char) : Option Nat :=
  if 48 ≤ c.toNat ∧ c.toNat ≤ 57 then some (c.toNat - 48)
  else if 97 ≤ c.toNat ∧ c.toNat ≤ 102 then some (c.toNat - 87)
  else if 65 ≤ c.toNat ∧ c.toNat ≤ 70 then some (c.toNat - 55)
  else none

/-- JSON escaping of one character, as `json.dump` with `ensure_ascii=False`
performs it: quote, backslash and the named control characters get
two-character escapes, the remaining control characters get `\u00xx`, and
everything else — non-ASCII included — is emitted verbatim. -/
def encodeChar (c : Char) : List Char :=
  if c = '"' then ['\\', '"']
  else if c = '\\' then ['\\', '\\']
  else if c = '\n' then ['\\', 'n']
  else if c = '\t' then ['\\', 't']
  else if c = '\r' then ['\\', 'r']
  else if c.toNat = 8 then ['\\', 'b']
  else if c.toNat = 12 then ['\\', 'f']
  else if c.toNat < 32 then
    ['\\', 'u', '0', '0', hexDigit (c.toNat / 16), hexDigit (c.toNat % 16)]
  else [c]

/-- Escaped body of a JSON string literal. -/
def encBody : List Char → List Char
  | [] => []
  | c :: cs => encodeChar c ++ encBody cs

/-- A complete JSON string literal for `s`. -/
def encodeString (s : String) : List Char :=
  '"' :: (encBody s.data ++ ['"'])

/-- The object `json.dump(..., ensure_ascii=False, indent=2)` emits for one
transcript entry at list depth one: keys in insertion order (`speaker`,
`who`, `text`), four-space key indentation. -/
def emitEntry (e : Entry) : List Char :=
  "  \x7b\n    \"speaker\": ".data ++ encodeString e.speaker ++
  ",\n    \"who\": ".data ++ encodeString e.who ++
  ",\n    \"text\": ".data ++ encodeString e.text ++
  "\n  \x7d".data

/-- The comma-and-newline separated sequence of entry objects. -/
def emitItems : List Entry → List Char
  | [] => []
  | [e] => emitEntry e
  | e :: rest => emitEntry e ++ (',' :: '\n' :: emitItems rest)

/-- Embedding of `export_transcript` (source lines 97-99): the exact text
that `json.dump(transcript, f, ensure_ascii=False, indent=2)` writes. -/
def export_transcript (transcript : List Entry) : String :=
  match transcript with
  | [] => "[]"
  | _ => ⟨'[' :: '\n' :: (emitItems transcript ++ ['\n', ']'])⟩

/-- Named two-character escapes accepted when parsing a JSON string. -/
def escChar (e : Char) : Option Char :=
  if e = '"' then some '"'
  else if e = '\\' then some '\\'
  else if e = '/' then some '/'
  else if e = 'n' then some '\n'
  else if e = 't' then some '\t'
  else if e = 'r' then some '\r'
  else if e = 'b' then some (Char.ofNat 8)
  else if e = 'f' then some (Char.ofNat 12)
  else none

/-- Decode the body of a JSON string literal, returning the decoded
characters and the input remaining after the closing quote. -/
def decodeBody : List Char → Option (List Char × List Char)
  | [] => none
  | c :: rest =>
    if c = '"' then some ([], rest)
    else if c = '\\' then
      match rest with
      | [] => none
      | e :: rest1 =>
        if e = 'u' then
          match rest1 with
          | h1 :: h2 :: h3 :: h4 :: rest2 =>
            match hexVal h1, hexVal h2, hexVal h3, hexVal h4 with
            | some v1, some v2, some v3, some v4 =>
              (decodeBody rest2).map fun p =>
                (Char.ofNat (((v1 * 16 + v2) * 16 + v3) * 16 + v4) :: p.1, p.2)
            | _, _, _, _ => none
          | _ => none
        else
          match escChar e with
          | some d => (decodeBody rest1).map fun p => (d :: p.1, p.2)
          | none => none
    else (decodeBody rest).map fun p => (c :: p.1, p.2)
termination_by l => l.length

/-- Decode a complete JSON string literal. -/
def decodeString : List Char → Option (String × List Char)
  | [] => none
  | c :: rest =>
    if c = '"' then (decodeBody rest).map fun p => (⟨p.1⟩, p.2)
    else none

/-- Strip an expected literal from the front of the input. -/
def expectLit : List Char → List Char → Option (List Char)
  | [], l => some l
  | _ :: _, [] => none
  | e :: es, c :: cs => if c = e then expectLit es cs else none

/-- Parse one entry object of the exported format. -/
def parseEntry (l : List Char) : Option (Entry × List Char) :=
  (expectLit "  \x7b\n    \"speaker\": ".data l).bind fun l1 =>
  (decodeString l1).bind fun p1 =>
  (expectLit ",\n    \"who\": ".data p1.2).bind fun l2 =>
  (decodeString l2).bind fun p2 =>
  (expectLit ",\n    \"text\": ".data p2.2).bind fun l3 =>
  (decodeString l3).bind fun p3 =>
  (expectLit "\n  \x7d".data p3.2).map fun l4 =>
  (⟨p1.1, p2.1, p3.1⟩, l4)

/-- Parse a nonempty comma-separated sequence of entry objects through the
closing newline and bracket; the fuel bounds the number of entries. -/
def parseItems : Nat → List Char → Option (List Entry × List Char)
  | 0, _ => none
  | fuel + 1, l =>
    (parseEntry l).bind fun p =>
      match expectLit (",\n".data) p.2 with
      | some l2 => (parseItems fuel l2).map fun q => (p.1 :: q.1, q.2)
      | none => (expectLit ("\n]".data) p.2).map fun l2 => ([p.1], l2)

/-- Parse a document in the exported transcript format back into its
entries. -/
def parse_transcript (s : String) : Option (List Entry) :=
  if s = "[]" then some []
  else
    (expectLit ("[\n".data) s.data).bind fun l =>
    (parseItems s.data.length l).bind fun p =>
    if p.2.isEmpty then some p.1 else none

/-- Hexadecimal digits decode back to their values. -/
theorem hexVal_hexDigit : ∀ v, v < 16 → hexVal (hexDigit v) = some v := by decide

/-- Decoding after a closing quote. -/
theorem decodeBody_quote (rest : List Char) :
    decodeBody ('"' :: rest) = some ([], rest) := by
  conv_lhs => rw [decodeBody.eq_def]
  simp

/-- Decoding a named two-character escape. -/
theorem decodeBody_esc (e d : Char) (rest : List Char) (hu : ¬ e = 'u')
    (hd : escChar e = some d) :
    decodeBody ('\\' :: e :: rest) = (decodeBody rest).map fun p => (d :: p.1, p.2) := by
  conv_lhs => rw [decodeBody.eq_def]
  simp +decide [hu, hd]

/-- Decoding a `\u`-escape with four valid hexadecimal digits. -/
theorem decodeBody_u (h1 h2 h3 h4 : Char) (v1 v2 v3 v4 : Nat) (rest : List Char)
    (hv1 : hexVal h1 = some v1) (hv2 : hexVal h2 = some v2)
    (hv3 : hexVal h3 = some v3) (hv4 : hexVal h4 = some v4) :
    decodeBody ('\\' :: 'u' :: h1 :: h2 :: h3 :: h4 :: rest) =
      (decodeBody rest).map fun p =>
        (Char.ofNat (((v1 * 16 + v2) * 16 + v3) * 16 + v4) :: p.1, p.2) := by
  conv_lhs => rw [decodeBody.eq_def]
  simp +decide [hv1, hv2, hv3, hv4]

/-- Decoding a verbatim character. -/
theorem decodeBody_verbatim (c : Char) (rest : List Char) (h1 : ¬ c = '"')
    (h2 : ¬ c = '\\') :
    decodeBody (c :: rest) = (decodeBody rest).map fun p => (c :: p.1, p.2) := by
  conv_lhs => rw [decodeBody.eq_def]
  simp [h1, h2]

/-- Stripping a literal it was just prepended. -/
theorem expectLit_append : ∀ (lit l : List Char), expectLit lit (lit ++ l) = some l := by
  intro lit
  induction lit with
  | nil => intro l; rfl
  | cons e es ih => intro l; simp [expectLit, ih]

/-- Decoding inverts escaping: the escaped body followed by the closing
quote decodes to the original characters, leaving the tail untouched. -/
theorem decodeBody_encBody : ∀ (l rest : List Char),
    decodeBody (encBody l ++ '"' :: rest) = some (l, rest) := by
  intro l
  induction l with
  | nil =>
    intro rest
    rw [show encBody [] = [] from rfl, List.nil_append, decodeBody_quote]
  | cons c cs ih =>
    intro rest
    rw [show encBody (c :: cs) = encodeChar c ++ encBody cs from rfl, List.append_assoc,
      encodeChar]
    by_cases h1 : c = '"'
    · subst h1
      rw [if_pos rfl]
      rw [show (['\\', '"'] : List Char) ++ (encBody cs ++ '"' :: rest) =
        '\\' :: '"' :: (encBody cs ++ '"' :: rest) from rfl]
      rw [decodeBody_esc '"' '"' _ (by decide) (by decide), ih rest]
      rfl
    · rw [if_neg h1]
      by_cases h2 : c = '\\'
      · subst h2
        rw [if_pos rfl]
        rw [show (['\\', '\\'] : List Char) ++ (encBody cs ++ '"' :: rest) =
          '\\' :: '\\' :: (encBody cs ++ '"' :: rest) from rfl]
        rw [decodeBody_esc '\\' '\\' _ (by decide) (by decide), ih rest]
        rfl
      · rw [if_neg h2]
        by_cases h3 : c = '\n'
        · subst h3
          rw [if_pos rfl]
          rw [show (['\\', 'n'] : List Char) ++ (encBody cs ++ '"' :: rest) =
            '\\' :: 'n' :: (encBody cs ++ '"' :: rest) from rfl]
          rw [decodeBody_esc 'n' '\n' _ (by decide) (by decide), ih rest]
          rfl
        · rw [if_neg h3]
          by_cases h4 : c = '\t'
          · subst h4
            rw [if_pos rfl]
            rw [show (['\\', 't'] : List Char) ++ (encBody cs ++ '"' :: rest) =
              '\\' :: 't' :: (encBody cs ++ '"' :: rest) from rfl]
            rw [decodeBody_esc 't' '\t' _ (by decide) (by decide), ih rest]
            rfl
          · rw [if_neg h4]
            by_cases h5 : c = '\r'
            · subst h5
              rw [if_pos rfl]
              rw [show (['\\', 'r'] : List Char) ++ (encBody cs ++ '"' :: rest) =
                '\\' :: 'r' :: (encBody cs ++ '"' :: rest) from rfl]
              rw [decodeBody_esc 'r' '\r' _ (by decide) (by decide), ih rest]
              rfl
            · rw [if_neg h5]
              by_cases h6 : c.toNat = 8
              · rw [if_pos h6]
                rw [show (['\\', 'b'] : List Char) ++ (encBody cs ++ '"' :: rest) =
                  '\\' :: 'b' :: (encBody cs ++ '"' :: rest) from rfl]
                rw [decodeBody_esc 'b' (Char.ofNat 8) _ (by decide) (by decide), ih rest]
                rw [show Char.ofNat 8 = c by rw [← h6, Char.ofNat_toNat]]
                rfl
              · rw [if_neg h6]
                by_cases h7 : c.toNat = 12
                · rw [if_pos h7]
                  rw [show (['\\', 'f'] : List Char) ++ (encBody cs ++ '"' :: rest) =
                    '\\' :: 'f' :: (encBody cs ++ '"' :: rest) from rfl]
                  rw [decodeBody_esc 'f' (Char.ofNat 12) _ (by decide) (by decide), ih rest]
                  rw [show Char.ofNat 12 = c by rw [← h7, Char.ofNat_toNat]]
                  rfl
                · rw [if_neg h7]
                  by_cases h8 : c.toNat < 32
                  · rw [if_pos h8]
                    rw [show ('\\' :: 'u' :: '0' :: '0' ::
                        hexDigit (c.toNat / 16) :: hexDigit (c.toNat % 16) :: []) ++
                        (encBody cs ++ '"' :: rest) =
                      '\\' :: 'u' :: '0' :: '0' :: hexDigit (c.toNat / 16) ::
                        hexDigit (c.toNat % 16) :: (encBody cs ++ '"' :: rest) from rfl]
                    rw [decodeBody_u _ _ _ _ 0 0 (c.toNat / 16) (c.toNat % 16) _
                      (by decide) (by decide)
                      (hexVal_hexDigit _ (by omega)) (hexVal_hexDigit _ (by omega)),
                      ih rest]
                    rw [show ((0 * 16 + 0) * 16 + c.toNat / 16) * 16 + c.toNat % 16 =
                      c.toNat by omega]
                    rw [Char.ofNat_toNat]
                    rfl
                  · rw [if_neg h8]
                    rw [show ([c] : List Char) ++ (encBody cs ++ '"' :: rest) =
                      c :: (encBody cs ++ '"' :: rest) from rfl]
                    rw [decodeBody_verbatim c _ h1 h2, ih rest]
                    rfl

/-- Decoding inverts the complete string literal encoding. -/
theorem decodeString_encodeString (s : String) (rest : List Char) :
    decodeString (encodeString s ++ rest) = some (s, rest) := by
  rw [show encodeString s ++ rest = '"' :: (encBody s.data ++ '"' :: rest) by
    rw [encodeString]; simp]
  rw [decodeString, if_pos rfl, decodeBody_encBody]
  rfl

/-- Parsing inverts the emission of one entry object. -/
theorem parseEntry_emitEntry (e : Entry) (rest : List Char) :
    parseEntry (emitEntry e ++ rest) = some (e, rest) := by
  simp +decide [parseEntry, emitEntry, List.append_assoc, expectLit,
    decodeString_encodeString]

/-- Parsing inverts the emission of a nonempty entry sequence, given enough
fuel. -/
theorem parseItems_emitItems : ∀ (tr : List Entry) (fuel : Nat) (rest : List Char),
    tr ≠ [] → tr.length ≤ fuel →
    parseItems fuel (emitItems tr ++ ('\n' :: ']' :: rest)) = some (tr, rest) := by
  intro tr
  induction tr with
  | nil => intro fuel rest h _; exact absurd rfl h
  | cons e tl ih =>
    intro fuel rest _ hlen
    obtain ⟨fuel, rfl⟩ : ∃ f, fuel = f + 1 := ⟨fuel - 1, by simp at hlen; omega⟩
    cases tl with
    | nil =>
      rw [show emitItems [e] = emitEntry e from rfl]
      simp only [parseItems, parseEntry_emitEntry, Option.some_bind]
      simp +decide [expectLit]
    | cons e2 tl2 =>
      rw [show emitItems (e :: e2 :: tl2) =
        emitEntry e ++ (',' :: '\n' :: emitItems (e2 :: tl2)) from rfl]
      rw [List.append_assoc]
      simp only [parseItems, parseEntry_emitEntry, Option.some_bind]
      rw [show (',' :: '\n' :: emitItems (e2 :: tl2)) ++ ('\n' :: ']' :: rest) =
        ',' :: '\n' :: (emitItems (e2 :: tl2) ++ ('\n' :: ']' :: rest)) from rfl]
      simp +decide only [expectLit, if_true, if_false]
      rw [ih fuel rest (by simp) (by simp at hlen ⊢; omega)]
      rfl

/-- Each emitted entry object is at least one character long. -/
theorem emitEntry_length_pos (e : Entry) : 1 ≤ (emitEntry e).length := by
  have hs : 1 ≤ (encodeString e.speaker).length := by
    rw [encodeString, List.length_cons]; omega
  rw [emitEntry]
  simp only [List.length_append]
  omega

/-- The emitted item sequence is at least as long as the entry list. -/
theorem emitItems_length_ge : ∀ tr : List Entry, tr.length ≤ (emitItems tr).length := by
  intro tr
  induction tr with
  | nil => simp [emitItems]
  | cons e tl ih =>
    cases tl with
    | nil => simpa [emitItems] using emitEntry_length_pos e
    | cons e2 tl2 =>
      rw [show emitItems (e :: e2 :: tl2) =
        emitEntry e ++ (',' :: '\n' :: emitItems (e2 :: tl2)) from rfl]
      have h1 := emitEntry_length_pos e
      simp only [List.length_append, List.length_cons] at ih ⊢
      omega

/-- C9: serializing a transcript with the structured JSON export and parsing
the result back reproduces the transcript exactly — same ordered entries,
hence the same ordered sequence of who/text pairs, with every character
(non-ASCII included) preserved verbatim. -/
theorem claim_C9_round_trip (tr : List Entry) :
    parse_transcript (export_transcript tr) = some tr := by
  cases tr with
  | nil => rfl
  | cons e tl =>
    rw [show export_transcript (e :: tl) =
      ⟨'[' :: '\n' :: (emitItems (e :: tl) ++ ['\n', ']'])⟩ from rfl]
    have hne : (⟨'[' :: '\n' :: (emitItems (e :: tl) ++ ['\n', ']'])⟩ : String) ≠ "[]" := by
      intro h
      have hd := congrArg String.data h
      simp only [String.data] at hd
      have h1 := congrArg (fun l => l[1]?) hd
      simp at h1
    rw [parse_transcript, if_neg hne]
    rw [show (⟨'[' :: '\n' :: (emitItems (e :: tl) ++ ['\n', ']'])⟩ : String).data =
      '[' :: '\n' :: (emitItems (e :: tl) ++ ['\n', ']']) from rfl]
    rw [show expectLit ("[\n".data) ('[' :: '\n' :: (emitItems (e :: tl) ++ ['\n', ']'])) =
      some (emitItems (e :: tl) ++ ['\n', ']']) from by simp +decide [expectLit]]
    rw [Option.some_bind]
    have hfuel : (e :: tl).length ≤
        ('[' :: '\n' :: (emitItems (e :: tl) ++ ['\n', ']'])).length := by
      have := emitItems_length_ge (e :: tl)
      simp only [List.length_cons, List.length_append] at this ⊢
      omega
    rw [show (emitItems (e :: tl) ++ ['\n', ']']) =
      emitItems (e :: tl) ++ ('\n' :: ']' :: []) from rfl]
    rw [parseItems_emitItems (e :: tl) _ [] (by simp) hfuel]
    rfl
